import Mathlib

/-!
Verification of the `synced` file-sharing relay server (src/public/main.js).
The definitions below are shallow embeddings of the server-side logic:
insertion-ordered association lists model JavaScript `Map` objects, `Int`
models JS integer arithmetic on byte counts and timestamps, and `Rat`
models the floating-point hue arithmetic exactly. The file is organised as
definitions first, then supporting lemmas and the claim theorems.
-/

namespace Synced

/-! ## Insertion-ordered association maps

JavaScript `Map` iterates keys in insertion order: `set` on a present key
updates the value in place (keeping its position), `set` on an absent key
appends, `delete` removes the entry, and `map.keys().next().value` is the
first (earliest-inserted) key. We model a `Map` as an association list in
insertion order. -/

variable {K : Type} {V : Type} [DecidableEq K]

/-- Lookup, i.e. `map.get(k)` combined with `map.has(k)`. -/
def mapGet : List (K × V) → K → Option V
  | [], _ => none
  | (k, v) :: rest, k' => if k' = k then some v else mapGet rest k'

/-- `map.set(k, v)`: update in place when the key is present, append
otherwise. -/
def mapSet : List (K × V) → K → V → List (K × V)
  | [], k, v => [(k, v)]
  | (k₀, v₀) :: rest, k, v =>
    if k = k₀ then (k₀, v) :: rest else (k₀, v₀) :: mapSet rest k v

/-- `map.delete(k)`: remove the entry with the given key. -/
def mapDelete : List (K × V) → K → List (K × V)
  | [], _ => []
  | (k₀, v₀) :: rest, k =>
    if k = k₀ then rest else (k₀, v₀) :: mapDelete rest k

/-- Whether a key is present. -/
def containsKey (m : List (K × V)) (k : K) : Bool :=
  (mapGet m k).isSome

/-! ## Upload admission (app.post upload handler, main.js lines 2257-2302)

The handler samples `avail = stats.bavail * stats.bsize`, parses the
`content-length` header with `parseInt`, and sets
`reserved = CONFIG.DISK_RESERVED + pendingUploadBytes`. It answers 411
when the parse result is `NaN` or `<= 0`, 507 when
`len > avail - reserved`, and otherwise admits the upload. We model the
`parseInt` result as `Option Int`: `none` stands for `NaN` (missing or
non-numeric header). -/

inductive UploadOutcome where
  | lengthRequired
  | storageFull
  | admitted
  deriving DecidableEq, Repr

/-- The admission decision of the upload handler, as the code computes it:
411 when `isNaN(len) || len <= 0`, 507 when
`len > avail - (DISK_RESERVED + pendingUploadBytes)`, else admitted. -/
def admitUpload (len? : Option Int) (avail reservedFloor inFlight : Int) :
    UploadOutcome :=
  match len? with
  | none => .lengthRequired
  | some len =>
    if len ≤ 0 then .lengthRequired
    else if len > avail - (reservedFloor + inFlight) then .storageFull
    else .admitted

/-- The admission predicate exactly as the specification words it: reject
with 411 when the declared length is missing, non-numeric or non-positive,
reject with 507 when the declared length exceeds
`availableBytes - (reservedFloor + inFlightBytes)`, admit otherwise. -/
def specAdmit (len? : Option Int) (avail reservedFloor inFlight : Int) :
    UploadOutcome :=
  if len? = none ∨ len?.getD 0 ≤ 0 then .lengthRequired
  else if len?.getD 0 > avail - (reservedFloor + inFlight) then .storageFull
  else .admitted

/-! ## Pending-upload ledger (main.js lines 2280-2291)

On admission the handler runs `pendingUploadBytes += len; tracked = true`
and registers `releaseSpace` on both the `finish` and `close` events;
`releaseSpace` subtracts `len` only while `tracked` is still set and then
clears it. -/

/-- Per-request ledger state: the shared `pendingUploadBytes` counter plus
the request-local one-shot `tracked` flag. -/
structure LedgerState where
  pending : Int
  tracked : Bool
  deriving DecidableEq, Repr

/-- The admission side effect: `pendingUploadBytes += len` with the fresh
request-local flag `tracked = true`. -/
def reserveSpace (len : Int) (pending : Int) : LedgerState :=
  { pending := pending + len, tracked := true }

/-- The `releaseSpace` closure: subtract `len` and clear `tracked` only if
`tracked` is still set, otherwise do nothing. -/
def releaseSpace (len : Int) (s : LedgerState) : LedgerState :=
  if s.tracked then { pending := s.pending - len, tracked := false } else s

/-! ## Metadata cache (main.js lines 2173-2179 and 2205-2211)

`cacheFileMeta` deletes the earliest-inserted key whenever
`fileMetaCache.size >= CONFIG.CACHE_LIMIT_FILES` (even when the written key
is already present) and then runs `fileMetaCache.set(filename, meta)`.
`getCachedFileMeta` returns a present entry without touching the map and
otherwise detects on disk and inserts the result when detection succeeds.
The default capacity `CONFIG.CACHE_LIMIT_FILES` is 1000. -/

/-- A cached file-metadata record, mime type and byte size. -/
structure FileMeta where
  mime : String
  size : Int
  deriving DecidableEq, Repr

/-- The fixed `CONFIG.CACHE_LIMIT_FILES` capacity. -/
def CACHE_LIMIT_FILES : Nat := 1000

/-- The `cacheFileMeta` insertion: drop the earliest-inserted entry when the
map has reached the capacity, then `set` the key. -/
def cacheFileMeta (limit : Nat) (cache : List (K × FileMeta)) (k : K)
    (m : FileMeta) : List (K × FileMeta) :=
  let c := if limit ≤ cache.length then cache.tail else cache
  mapSet c k m

/-- The `getCachedFileMeta` read path: a present key is returned with no
mutation; an absent key consults disk detection (abstracted as `detect`,
the result of `detectFileMeta`) and caches a successful result. Returns
the answer and the updated cache. -/
def getCachedFileMeta (limit : Nat) (cache : List (K × FileMeta)) (k : K)
    (detect : Option FileMeta) : Option FileMeta × List (K × FileMeta) :=
  match mapGet cache k with
  | some m => (some m, cache)
  | none =>
    match detect with
    | some m => (some m, cacheFileMeta limit cache k m)
    | none => (none, cache)

/-- Insert a list of entries in order through `cacheFileMeta`. -/
def insertAll (limit : Nat) (cache : List (K × FileMeta)) :
    List (K × FileMeta) → List (K × FileMeta)
  | [] => cache
  | (k, m) :: rest => insertAll limit (cacheFileMeta limit cache k m) rest

/-- A sample metadata record used by the concrete cache scenarios. -/
def meta0 : FileMeta := ⟨"text/plain", 1⟩

/-- A cache at the default capacity: keys 0 to 999 in insertion order. -/
def bigCache : List (Nat × FileMeta) :=
  (List.range CACHE_LIMIT_FILES).map (fun i => (i, meta0))

/-- Re-insert the already-present key 0 into the full cache. -/
def cexStep1 : List (Nat × FileMeta) :=
  cacheFileMeta CACHE_LIMIT_FILES bigCache 0 meta0

/-- Then insert the fresh key 1000, the 1001st distinct key. -/
def cexStep2 : List (Nat × FileMeta) :=
  cacheFileMeta CACHE_LIMIT_FILES cexStep1 1000 meta0

/-! ## Per-identity rate limiting (socket message handler, main.js 2343-2358,
and the sweep at lines 2309-2314)

Each inbound realtime message runs: look up `ipRateLimits.get(ipHash)`; if
absent or `now > expires`, evict the earliest-inserted entry when the table
has reached `CONFIG.CACHE_LIMIT_IPS` entries and install a fresh window
`count 0, expires now + 60000`; then `++count`, and the message is rejected
when the incremented count exceeds `CONFIG.MAX_REQ_PER_MIN`. -/

structure RateWindow where
  count : Int
  expires : Int
  deriving DecidableEq, Repr

/-- The fresh-window path: evict the earliest-inserted entry if the table is
at capacity, then install the new window; the stored count is already
incremented to 1 and the message is allowed when `1 <= limit`. -/
def rateFresh (capIps : Nat) (limit : Int) (table : List (K × RateWindow))
    (id : K) (now : Int) : List (K × RateWindow) × Bool :=
  let t1 := if capIps ≤ table.length then table.tail else table
  (mapSet t1 id ⟨1, now + 60000⟩, decide (1 ≤ limit))

/-- One rate-limiter check for one inbound message, returning the updated
table and whether the message is allowed. -/
def rateStep (capIps : Nat) (limit : Int) (table : List (K × RateWindow))
    (id : K) (now : Int) : List (K × RateWindow) × Bool :=
  match mapGet table id with
  | some w =>
    if now > w.expires then rateFresh capIps limit table id now
    else (mapSet table id ⟨w.count + 1, w.expires⟩, decide (w.count + 1 ≤ limit))
  | none => rateFresh capIps limit table id now

/-- The 60-second maintenance sweep: drop every window whose `expires` has
already passed. -/
def sweepExpired (table : List (K × RateWindow)) (now : Int) :
    List (K × RateWindow) :=
  table.filter (fun e => decide (now ≤ e.2.expires))

/-- Run a sequence of messages (identity, arrival time) through the rate
limiter, threading the table. -/
def runMessages (capIps : Nat) (limit : Int) (table : List (K × RateWindow)) :
    List (K × Int) → List (K × RateWindow)
  | [] => table
  | (id, t) :: rest =>
    runMessages capIps limit (rateStep capIps limit table id t).1 rest

/-- Run a burst of messages from one identity, collecting the allowed flag
of each message in order. -/
def runId (capIps : Nat) (limit : Int) (table : List (K × RateWindow))
    (id : K) : List Int → List (K × RateWindow) × List Bool
  | [] => (table, [])
  | t :: ts =>
    let s := rateStep capIps limit table id t
    let r := runId capIps limit s.1 id ts
    (r.1, s.2 :: r.2)

/-- The allowed flags a burst of `n` messages should produce when the
window's count starts at `c`: message `i` (1-based) is allowed exactly when
`c + i` stays within the limit. -/
def expectedFlags (limit : Int) (c : Int) : Nat → List Bool
  | 0 => []
  | n + 1 => decide (c + 1 ≤ limit) :: expectedFlags limit (c + 1) n

/-! ## MIME detection (main.js lines 2171 and 2181-2203, and the inline-blob
branch at lines 2394-2402)

`isText` is the null-byte scan `!buf.includes(0x00)`. The magic-byte
sniffing itself lives in the external `file-type` package
(`fileTypeFromFile` / `fileTypeFromBuffer`), not in this repository, so it
is modelled from the spec as a leading-byte signature table. The file
fallback reads the first 512 bytes from disk and scans those; the
inline-blob fallback scans the whole decoded buffer. -/

/-- The `isText` check: no null byte anywhere in the buffer. -/
def isText (buf : List Nat) : Bool := !buf.contains 0

/-- Whether a buffer starts with the given signature bytes. -/
def bytesMatch : List Nat → List Nat → Bool
  | [], _ => true
  | _ :: _, [] => false
  | s :: sr, b :: br => s == b && bytesMatch sr br

/-- The PNG signature bytes. -/
def pngSignature : List Nat := [0x89, 0x50, 0x4E, 0x47]

/-- The JPEG signature bytes. -/
def jpegSignature : List Nat := [0xFF, 0xD8, 0xFF]

/-- The GIF signature bytes. -/
def gifSignature : List Nat := [0x47, 0x49, 0x46, 0x38]

/-- The PDF signature bytes. -/
def pdfSignature : List Nat := [0x25, 0x50, 0x44, 0x46]

/-- Modelled from the spec: the magic-byte signature table of the external
file-type library, which ships outside this repository. Each entry
associates leading bytes with the reported MIME type. -/
def signatureTable : List (List Nat × String) :=
  [(pngSignature, "image/png"),
   (jpegSignature, "image/jpeg"),
   (gifSignature, "image/gif"),
   (pdfSignature, "application/pdf")]

/-- Modelled from the spec: the detection entry point of the external
file-type library; the first signature whose bytes lead the buffer wins. -/
def sniffSignature (buf : List Nat) : Option String :=
  (signatureTable.find? (fun e => bytesMatch e.1 buf)).map Prod.snd

/-- The MIME classification of `detectFileMeta` for a readable file with
the given bytes: signature sniffing first, then the null-byte fallback on
the first 512 bytes read from disk. -/
def fileMime (bytes : List Nat) : String :=
  match sniffSignature bytes with
  | some m => m
  | none =>
    if isText (bytes.take 512) then "text/plain"
    else "application/octet-stream"

/-- The full `detectFileMeta` result for a readable file: the classified
MIME type and the byte size from `stat`. -/
def detectFileMeta (bytes : List Nat) : FileMeta :=
  ⟨fileMime bytes, bytes.length⟩

/-- The MIME classification of the inline data-blob branch of the message
handler: signature sniffing on the decoded buffer, then the null-byte
fallback over the whole buffer (the `mime` variable starts at
application/octet-stream and is only upgraded). -/
def inlineMime (b : List Nat) : String :=
  match sniffSignature b with
  | some m => m
  | none => if isText b then "text/plain" else "application/octet-stream"

/-- A 513-byte buffer: 512 letter bytes followed by one null byte. Its
512-byte head has no null byte, the full buffer does. -/
def cexBuf : List Nat := List.replicate 512 65 ++ [0]

/-! ## Stored filename sanitization (multer diskStorage, main.js 2236-2249)

The stored name is `id-safeName ++ ext` where `id` is 16 hex characters
from `randomBytes(8)`, `ext = path.extname(file.originalname)`,
`name = path.basename(file.originalname, ext)`, and `safeName` is `name`
piped through: replace every character outside `[a-z0-9.-]` with `_`
case-insensitively, collapse `_` runs, trim `_` from both edges, truncate
to 100 characters, then strip any trailing `_` run again. -/

/-- Membership in the character class `[a-z0-9.-]` with the `i` flag, i.e.
ASCII letters of either case, digits, dot and hyphen. -/
def allowedUpload (c : Char) : Bool :=
  ('a' ≤ c && c ≤ 'z') || ('A' ≤ c && c ≤ 'Z') || ('0' ≤ c && c ≤ '9') ||
    c == '.' || c == '-'

/-- `replace(/[^a-z0-9.-]/gi, _)`: map every disallowed character to an
underscore. -/
def replaceDisallowed (s : List Char) : List Char :=
  s.map (fun c => if allowedUpload c then c else '_')

/-- `replace(/_+/g, _)`: collapse each run of underscores to a single
underscore, i.e. drop every underscore that is immediately followed by
another underscore. -/
def collapseUnderscores : List Char → List Char
  | [] => []
  | [c] => [c]
  | c :: d :: rest =>
    if c == '_' && d == '_' then collapseUnderscores (d :: rest)
    else c :: collapseUnderscores (d :: rest)

/-- The second regex alternative `_+$`: strip a trailing underscore run. -/
def trimTrailing (s : List Char) : List Char :=
  (s.reverse.dropWhile (fun d => d == '_')).reverse

/-- `replace(/^_+|_+$/g, )`: strip the leading and the trailing underscore
run. -/
def trimEdgeUnderscores (s : List Char) : List Char :=
  trimTrailing (s.dropWhile (fun d => d == '_'))

/-- The complete `safeName` pipeline of the storage filename callback. -/
def sanitizeUploadName (s : List Char) : List Char :=
  trimTrailing
    ((trimEdgeUnderscores (collapseUnderscores (replaceDisallowed s))).take 100)

/-- `path.basename`: the component after the last path separator. -/
def jsBasename (p : List Char) : List Char :=
  (p.reverse.takeWhile (fun c => !(c == '/'))).reverse

/-- `path.extname` combined with `path.basename(name, ext)`: split a base
name at its last dot; a missing dot or a dot in the first position yields
an empty extension. -/
def extSplit (b : List Char) : List Char × List Char :=
  let afterDot := b.reverse.takeWhile (fun c => !(c == '.'))
  if afterDot.length = b.length then (b, [])
  else
    let dotIdx := b.length - afterDot.length - 1
    if dotIdx = 0 then (b, []) else (b.take dotIdx, b.drop dotIdx)

/-- The stored filename built by the multer storage callback, as a function
of the random hex id and the client-supplied original name. -/
def storedFilename (id : List Char) (originalname : List Char) : List Char :=
  let base := jsBasename originalname
  let pe := extSplit base
  id ++ '-' :: (sanitizeUploadName pe.1 ++ pe.2)

/-- The character class exactly as the claim words it: `[a-z0-9.-]`,
lowercase letters only. -/
def claimAllowed (c : Char) : Bool :=
  ('a' ≤ c && c ≤ 'z') || ('0' ≤ c && c ≤ '9') || c == '.' || c == '-'

/-- The sanitization exactly as the claim words it: replace every character
outside `[a-z0-9.-]` with an underscore, collapse runs, trim both edges,
truncate to 100 characters, with no further trimming. -/
def claimSanitize (s : List Char) : List Char :=
  (trimEdgeUnderscores (collapseUnderscores
    (s.map (fun c => if claimAllowed c then c else '_')))).take 100

/-- The stored filename the claim's sanitization would produce. -/
def claimStoredFilename (id : List Char) (originalname : List Char) :
    List Char :=
  let base := jsBasename originalname
  let pe := extSplit base
  id ++ '-' :: (claimSanitize pe.1 ++ pe.2)

/-- Decidable check that a character list has no two adjacent
underscores. -/
def noDoubleUnderscore : List Char → Bool
  | [] => true
  | [_] => true
  | a :: b :: rest =>
    !(a == '_' && b == '_') && noDoubleUnderscore (b :: rest)

/-! ## Hue assignment (assignHue, main.js lines 2149-2169)

The code sorts the active hues ascending, walks every adjacent pair
including the wrap-around pair, computes the forward gap (adding 360 when
non-positive), and keeps the midpoint of the first maximal gap; an empty
set yields the fixed default 210. Floating-point hue arithmetic is modelled
exactly over the rationals. -/

/-- The forward gap of an adjacent pair: `next - current`, plus 360 when
non-positive. -/
def gapOf (p : ℚ × ℚ) : ℚ :=
  if p.2 - p.1 ≤ 0 then p.2 - p.1 + 360 else p.2 - p.1

/-- The JavaScript `x % 360` on the non-negative values that arise here. -/
def jsMod360 (x : ℚ) : ℚ := x - 360 * ⌊x / 360⌋

/-- The candidate midpoint of a pair: `(current + gap / 2) % 360`. -/
def midOf (p : ℚ × ℚ) : ℚ := jsMod360 (p.1 + gapOf p / 2)

/-- The list of pairs the loop visits: each element with its cyclic
successor `hues[(i + 1) % hues.length]`. -/
def adjPairs (hs : List ℚ) : List (ℚ × ℚ) :=
  match hs with
  | [] => []
  | a :: rest => hs.zip (rest ++ [a])

/-- The loop state `(maxGap, bestHue)`: a pair strictly improving the
maximal gap replaces the state. -/
def hueFold : List (ℚ × ℚ) → ℚ × ℚ → ℚ × ℚ
  | [], s => s
  | p :: rest, s =>
    hueFold rest (if s.1 < gapOf p then (gapOf p, midOf p) else s)

/-- The `assignHue` function: 210 for no active hues, otherwise the best
midpoint over the sorted hue list. -/
def assignHue (hues : List ℚ) : ℚ :=
  let hs := hues.insertionSort (· ≤ ·)
  match hs with
  | [] => 210
  | _ :: _ => (hueFold (adjPairs hs) (0, 0)).2

/-- The spec-side selection predicate: `r` is the gap and midpoint of the
pair at the first index attaining the maximal forward gap. -/
def IsFirstMaxGap (l : List (ℚ × ℚ)) (r : ℚ × ℚ) : Prop :=
  ∃ i, ∃ h : i < l.length,
    r = (gapOf (l.get ⟨i, h⟩), midOf (l.get ⟨i, h⟩)) ∧
    (∀ j, ∀ hj : j < l.length, gapOf (l.get ⟨j, hj⟩) ≤ gapOf (l.get ⟨i, h⟩)) ∧
    ∀ j, ∀ hj : j < i, gapOf (l.get ⟨j, Nat.lt_trans hj h⟩) < gapOf (l.get ⟨i, h⟩)

/-! ## The realtime message handler (io.on connection, main.js 2343-2411)

Inbound socket messages are arbitrary JSON values, modelled by `JSVal`
(numbers as rationals). Property access on `null`/`undefined` throws, and
so does property assignment on any non-object in strict mode (the server
is an ES module); calling `.startsWith` on a non-string throws. The
handler body before the `try` block is not protected: a thrown error
escapes the handler. `Except JSErr` models this. -/

inductive JSVal where
  | null
  | undefined
  | bool (b : Bool)
  | num (q : ℚ)
  | str (s : String)
  | obj (fields : List (String × JSVal))

inductive JSErr where
  | typeError
  deriving DecidableEq, Repr

/-- Property read `v.name`: throws on `null`/`undefined`, yields the field
or `undefined` on objects, `undefined` on other primitives. -/
def getField : JSVal → String → Except JSErr JSVal
  | .null, _ => .error .typeError
  | .undefined, _ => .error .typeError
  | .obj fields, name => .ok ((mapGet fields name).getD .undefined)
  | _, _ => .ok .undefined

/-- Property write `v.name = x` in strict mode: succeeds only on objects,
throws a TypeError otherwise. -/
def setField : JSVal → String → JSVal → Except JSErr JSVal
  | .obj fields, name, v => .ok (.obj (mapSet fields name v))
  | _, _, _ => .error .typeError

/-- Method call `v.startsWith(p)`: only strings have it; every other value
throws a TypeError. -/
def jsStartsWith : JSVal → String → Except JSErr Bool
  | .str s, p => .ok (s.startsWith p)
  | _, _ => .error .typeError

/-- JavaScript truthiness. -/
def jsTruthy : JSVal → Bool
  | .null => false
  | .undefined => false
  | .bool b => b
  | .num q => !(q == 0)
  | .str s => !(s == "")
  | .obj _ => true

/-- The `String(v)` conversion. -/
def jsToString : JSVal → String
  | .null => "null"
  | .undefined => "undefined"
  | .bool b => if b then "true" else "false"
  | .num q => toString q
  | .str s => s
  | .obj _ => "[object Object]"

/-- Strict-equality test against a string literal, `v === lit`. -/
def isStr (v : JSVal) (lit : String) : Bool :=
  match v with
  | .str s => s == lit
  | _ => false

/-- The string payload of a string value (only used where a value is known
to be a string). -/
def contentStr : JSVal → String
  | .str s => s
  | _ => ""

/-- The display-name sanitization of the file branch (lines 2379-2382):
base component, replace outside `[a-z0-9_.-]` case-insensitively,
collapse underscore runs; no trimming. -/
def sanitizeMsgName (s : String) : String :=
  String.mk (collapseUnderscores ((jsBasename s.toList).map
    (fun c => if allowedUpload c || c == '_' then c else '_')))

/-- The fixed `MAX_PATH_LENGTH` bound on upload-directory references. -/
def MAX_PATH_LENGTH : Nat := 256

inductive Outcome where
  | errorToSender (s : String)
  | broadcast (m : JSVal)
  | dropped

/-- The enrichment of lines 2360-2364: stamp the sender id, the server
receipt time, and the sender's hue (default 210). -/
def enrichMsg (socketId : String) (now : Int) (hue : ℚ) (msg : JSVal) :
    Except JSErr JSVal :=
  match setField msg "senderId" (.str socketId) with
  | .error e => .error e
  | .ok m1 =>
    match setField m1 "timestamp" (.num now) with
    | .error e => .error e
    | .ok m2 => setField m2 "hue" (.num hue)

/-- The shared tail of both file branches inside the `try` block: stamp
`fileType` and `size`, then broadcast; a thrown error would be caught and
the message dropped. -/
def stampAndBroadcast (table : List (String × RateWindow)) (m : JSVal)
    (mime : String) (size : ℚ) :
    List (String × RateWindow) × Outcome :=
  match setField m "fileType" (.str mime) with
  | .error _ => (table, .dropped)
  | .ok m5 =>
    match setField m5 "size" (.num size) with
    | .error _ => (table, .dropped)
    | .ok m6 => (m6 |> fun mm => (table, .broadcast mm))

/-- Static part of the handler context: capacities, ceilings and the
per-connection identity data computed at connect time. -/
structure HandlerCtx where
  capIps : Nat
  maxReq : Int
  socketId : String
  ipHash : String
  now : Int

/-- The type dispatch and file enrichment of the handler (lines 2366-2410),
run on the enriched message: text messages broadcast under the length cap,
file messages are validated, named, resolved and broadcast, anything else
is dropped. -/
def dispatchMsg (metaOf : String → Option FileMeta)
    (decode : String → List Nat) (rs1 : List (String × RateWindow))
    (m3 : JSVal) : Except JSErr (List (String × RateWindow) × Outcome) :=
  match getField m3 "type" with
  | .error e => .error e
  | .ok t =>
    if isStr t "text" then
      match getField m3 "content" with
      | .error e => .error e
      | .ok c =>
        match c with
        | .str s =>
          if s.length < 65536 then .ok (rs1, .broadcast m3)
          else .ok (rs1, .dropped)
        | _ => .ok (rs1, .dropped)
    else if !(isStr t "file") then .ok (rs1, .dropped)
    else
      match getField m3 "content" with
      | .error e => .error e
      | .ok c =>
        match jsStartsWith c "/uploads/" with
        | .error e => .error e
        | .ok bUp =>
          match jsStartsWith c "data:" with
          | .error e => .error e
          | .ok bData =>
            if !bUp && !bData then .ok (rs1, .dropped)
            else if bUp && (contentStr c).length > MAX_PATH_LENGTH then
              .ok (rs1, .dropped)
            else
              match getField m3 "name" with
              | .error e => .error e
              | .ok nv =>
                let base := jsToString (if jsTruthy nv then nv else .str "file")
                match setField m3 "name" (.str (sanitizeMsgName base)) with
                | .error e => .error e
                | .ok m4 =>
                  if bUp then
                    let filename := String.mk (jsBasename (contentStr c).toList)
                    match metaOf filename with
                    | none => .ok (rs1, .dropped)
                    | some meta =>
                      .ok (stampAndBroadcast rs1 m4 meta.mime meta.size)
                  else
                    let parts := (contentStr c).splitOn ","
                    if parts.length < 2 then .ok (rs1, .dropped)
                    else
                      let b := decode (parts.getD 1 "")
                      let mime :=
                        match sniffSignature b with
                        | some mm => mm
                        | none =>
                          if isText b then "text/plain"
                          else "application/octet-stream"
                      .ok (stampAndBroadcast rs1 m4 mime b.length)

/-- One run of the `socket.on('message')` handler. `metaOf` abstracts
`getCachedFileMeta` (cache plus disk), `decode` abstracts
`Buffer.from(payload, base64)`. The result is the updated rate table and
the outcome, or the JavaScript error the handler threw. -/
def handleMessage (ctx : HandlerCtx) (metaOf : String → Option FileMeta)
    (decode : String → List Nat) (table : List (String × RateWindow))
    (hues : List (String × ℚ)) (msg : JSVal) :
    Except JSErr (List (String × RateWindow) × Outcome) :=
  let rs := rateStep ctx.capIps ctx.maxReq table ctx.ipHash ctx.now
  if !rs.2 then .ok (rs.1, .errorToSender "Rate limit exceeded")
  else
    match enrichMsg ctx.socketId ctx.now
        ((mapGet hues ctx.socketId).getD 210) msg with
    | .error e => .error e
    | .ok m3 => dispatchMsg metaOf decode rs.1 m3

end Synced

/-! # Claim theorems and supporting lemmas -/

namespace Synced

variable {K : Type} {V : Type} [DecidableEq K]

theorem mapGet_set_self (m : List (K × V)) (k : K) (v : V) :
    mapGet (mapSet m k v) k = some v := by
  induction m with
  | nil => simp [mapSet, mapGet]
  | cons hd tl ih =>
    obtain ⟨k₀, v₀⟩ := hd
    by_cases h : k = k₀ <;> simp [mapSet, mapGet, h, ih]

theorem mapGet_set_ne (m : List (K × V)) (k k' : K) (v : V) (h : k' ≠ k) :
    mapGet (mapSet m k v) k' = mapGet m k' := by
  induction m with
  | nil => simp [mapSet, mapGet, h]
  | cons hd tl ih =>
    obtain ⟨k₀, v₀⟩ := hd
    by_cases hk : k = k₀
    · subst hk
      simp [mapSet, mapGet, h]
    · by_cases hk' : k' = k₀ <;> simp [mapSet, mapGet, hk, hk', ih]

theorem length_mapSet (m : List (K × V)) (k : K) (v : V) :
    (mapSet m k v).length =
      if containsKey m k then m.length else m.length + 1 := by
  induction m with
  | nil => simp [mapSet, containsKey, mapGet]
  | cons hd tl ih =>
    obtain ⟨k₀, v₀⟩ := hd
    by_cases h : k = k₀
    · subst h
      simp [mapSet, containsKey, mapGet]
    · have hne : ¬k₀ = k := fun hh => h hh.symm
      simp only [mapSet, if_neg h, List.length_cons, containsKey, mapGet,
        if_neg hne]
      rw [show containsKey tl k = (mapGet tl k).isSome from rfl] at ih
      by_cases hc : (mapGet tl k).isSome <;> simp [hc] at ih ⊢ <;> omega

theorem length_mapSet_le (m : List (K × V)) (k : K) (v : V) :
    (mapSet m k v).length ≤ m.length + 1 := by
  rw [length_mapSet]
  split <;> omega

/-- C1: the upload handler's admission decision coincides with the spec's
predicate on every input, and at the spec's concrete instance
(available 1000, reserved 200, in flight 300) a declared length of 501 is
rejected as storage-full while 500 is admitted. -/
theorem C1_upload_admission (len? : Option Int) (avail reservedFloor inFlight : Int) :
    admitUpload len? avail reservedFloor inFlight =
      specAdmit len? avail reservedFloor inFlight ∧
    admitUpload (some 501) 1000 200 300 = .storageFull ∧
    admitUpload (some 500) 1000 200 300 = .admitted := by
  refine ⟨?_, by decide, by decide⟩
  cases len? with
  | none => simp [admitUpload, specAdmit]
  | some len =>
    by_cases h : len ≤ 0
    · simp [admitUpload, specAdmit, h]
    · by_cases h2 : len > avail - (reservedFloor + inFlight) <;>
        simp [admitUpload, specAdmit, h, h2]

theorem releaseSpace_untracked (len : Int) (s : LedgerState)
    (h : s.tracked = false) : releaseSpace len s = s := by
  simp [releaseSpace, h]

theorem releaseSpace_iterate_untracked (len : Int) (s : LedgerState)
    (h : s.tracked = false) : ∀ m, (releaseSpace len)^[m] s = s := by
  intro m
  induction m with
  | zero => rfl
  | succ m ih =>
    rw [Function.iterate_succ_apply, releaseSpace_untracked len s h, ih]

/-- C2: for every admitted upload, the shared counter is incremented exactly
once by the declared length; the first release restores the pre-request
value and clears the one-shot flag; a second release (finish and close both
firing) changes nothing; and any positive number of release signals leaves
the counter exactly at its pre-request value. -/
theorem C2_ledger_idempotent_release (len pending : Int) (n : Nat)
    (hn : 1 ≤ n) :
    (reserveSpace len pending).pending = pending + len ∧
    releaseSpace len (reserveSpace len pending) =
      { pending := pending, tracked := false } ∧
    releaseSpace len (releaseSpace len (reserveSpace len pending)) =
      releaseSpace len (reserveSpace len pending) ∧
    ((releaseSpace len)^[n] (reserveSpace len pending)).pending = pending := by
  have h1 : releaseSpace len (reserveSpace len pending) =
      { pending := pending, tracked := false } := by
    simp [releaseSpace, reserveSpace]
  refine ⟨rfl, h1, ?_, ?_⟩
  · rw [h1, releaseSpace_untracked _ _ rfl]
  · obtain ⟨m, rfl⟩ : ∃ m, n = m + 1 := ⟨n - 1, by omega⟩
    rw [Function.iterate_succ_apply, h1,
      releaseSpace_iterate_untracked _ _ rfl]

/-- Witness for C2: a concrete admitted upload of 50 bytes on a ledger at
7 bytes, with both completion signals firing. -/
theorem C2_ledger_idempotent_release_witness :
    ((releaseSpace 50)^[2] (reserveSpace 50 7)).pending = 7 :=
  (C2_ledger_idempotent_release 50 7 2 (by decide)).2.2.2

theorem rateStep_reuse (capIps : Nat) (limit : Int)
    (table : List (K × RateWindow)) (id : K) (now : Int) (c e : Int)
    (hget : mapGet table id = some ⟨c, e⟩) (hnow : now ≤ e) :
    rateStep capIps limit table id now =
      (mapSet table id ⟨c + 1, e⟩, decide (c + 1 ≤ limit)) := by
  simp [rateStep, hget, not_lt.mpr hnow]

theorem rateStep_fresh (capIps : Nat) (limit : Int)
    (table : List (K × RateWindow)) (id : K) (now : Int)
    (h : mapGet table id = none ∨
      ∃ w, mapGet table id = some w ∧ now > w.expires) :
    rateStep capIps limit table id now = rateFresh capIps limit table id now := by
  rcases h with h | ⟨w, hw, hexp⟩
  · simp [rateStep, h]
  · simp [rateStep, hw, hexp]

theorem runId_reuse_window (capIps : Nat) (limit : Int) (id : K) :
    ∀ (ts : List Int) (table : List (K × RateWindow)) (c e : Int),
    mapGet table id = some ⟨c, e⟩ → (∀ t ∈ ts, t ≤ e) →
    (runId capIps limit table id ts).2 = expectedFlags limit c ts.length ∧
    mapGet (runId capIps limit table id ts).1 id = some ⟨c + ts.length, e⟩ := by
  intro ts
  induction ts with
  | nil =>
    intro table c e hget _
    simpa [runId, expectedFlags] using hget
  | cons t ts ih =>
    intro table c e hget hin
    have hstep := rateStep_reuse capIps limit table id t c e hget
      (hin t (List.mem_cons_self t ts))
    have hget' : mapGet (mapSet table id (⟨c + 1, e⟩ : RateWindow)) id =
        some ⟨c + 1, e⟩ := mapGet_set_self table id _
    have hin' : ∀ t' ∈ ts, t' ≤ e := fun t' ht' => hin t' (List.mem_cons_of_mem _ ht')
    obtain ⟨hflags, hfin⟩ := ih (mapSet table id ⟨c + 1, e⟩) (c + 1) e hget' hin'
    constructor
    · simp only [runId, hstep, hflags, expectedFlags, List.length_cons]
    · simp only [runId, hstep, hfin, List.length_cons]
      congr 2
      omega

theorem expectedFlags_getD (limit : Int) :
    ∀ (n : Nat) (c : Int) (i : Nat), i < n →
    (expectedFlags limit c n).getD i false = decide (c + i + 1 ≤ limit) := by
  intro n
  induction n with
  | zero => omega
  | succ n ih =>
    intro c i hi
    cases i with
    | zero => simp [expectedFlags]
    | succ i =>
      have := ih (c + 1) i (by omega)
      simp only [expectedFlags, List.getD_cons_succ, this]
      rw [decide_eq_decide]
      constructor <;> intro h <;> omega

theorem rateFresh_length_le (capIps : Nat) (limit : Int)
    (table : List (K × RateWindow)) (id : K) (now : Int)
    (hcap : 0 < capIps) (hlen : table.length ≤ capIps) :
    (rateFresh capIps limit table id now).1.length ≤ capIps := by
  by_cases h : capIps ≤ table.length
  · have h1 : (rateFresh capIps limit table id now).1 =
        mapSet table.tail id ⟨1, now + 60000⟩ := by
      simp [rateFresh, h]
    rw [h1]
    have h2 := length_mapSet_le table.tail id (⟨1, now + 60000⟩ : RateWindow)
    have h3 : table.tail.length = table.length - 1 := List.length_tail table
    omega
  · have h1 : (rateFresh capIps limit table id now).1 =
        mapSet table id ⟨1, now + 60000⟩ := by
      simp [rateFresh, h]
    rw [h1]
    have h2 := length_mapSet_le table id (⟨1, now + 60000⟩ : RateWindow)
    omega

theorem rateStep_length_le (capIps : Nat) (limit : Int)
    (table : List (K × RateWindow)) (id : K) (now : Int)
    (hcap : 0 < capIps) (hlen : table.length ≤ capIps) :
    (rateStep capIps limit table id now).1.length ≤ capIps := by
  rcases hget : mapGet table id with _ | w
  · rw [rateStep_fresh capIps limit table id now (Or.inl hget)]
    exact rateFresh_length_le capIps limit table id now hcap hlen
  · by_cases hexp : now > w.expires
    · rw [rateStep_fresh capIps limit table id now (Or.inr ⟨w, hget, hexp⟩)]
      exact rateFresh_length_le capIps limit table id now hcap hlen
    · obtain ⟨c, e⟩ := w
      rw [rateStep_reuse capIps limit table id now c e hget (not_lt.mp hexp)]
      have h2 := length_mapSet table id (⟨c + 1, e⟩ : RateWindow)
      have h3 : containsKey table id = true := by
        simp [containsKey, hget]
      rw [h3] at h2
      simp only [if_true] at h2
      simpa [h2] using hlen

theorem runMessages_length_le (capIps : Nat) (limit : Int)
    (hcap : 0 < capIps) :
    ∀ (msgs : List (K × Int)) (table : List (K × RateWindow)),
    table.length ≤ capIps →
    (runMessages capIps limit table msgs).length ≤ capIps := by
  intro msgs
  induction msgs with
  | nil => intro table hlen; simpa [runMessages] using hlen
  | cons m rest ih =>
    intro table hlen
    obtain ⟨id, t⟩ := m
    exact ih _ (rateStep_length_le capIps limit table id t hcap hlen)

/-- C8: the rate-limiter table never exceeds its identity capacity: one
check preserves the bound, any sequence of messages preserves the bound,
and allocating a fresh window at capacity evicts exactly the
earliest-inserted entry (the head of the insertion-ordered table) before
inserting the new window. -/
theorem C8_rate_table_bounded (capIps : Nat) (limit : Int)
    (table : List (String × RateWindow)) (id : String) (now : Int)
    (msgs : List (String × Int))
    (hcap : 0 < capIps) (hlen : table.length ≤ capIps) :
    (rateStep capIps limit table id now).1.length ≤ capIps ∧
    (runMessages capIps limit table msgs).length ≤ capIps ∧
    (table.length = capIps →
      (mapGet table id = none ∨
        ∃ w, mapGet table id = some w ∧ now > w.expires) →
      rateStep capIps limit table id now =
        (mapSet table.tail id ⟨1, now + 60000⟩, decide (1 ≤ limit))) := by
  refine ⟨rateStep_length_le capIps limit table id now hcap hlen,
    runMessages_length_le capIps limit hcap msgs table hlen, ?_⟩
  intro hfull hfresh
  rw [rateStep_fresh capIps limit table id now hfresh]
  simp [rateFresh, hfull.ge]

/-- Witness for C8: a table of two identities at capacity two; a third
identity arrives and the earliest entry is evicted. -/
theorem C8_rate_table_bounded_witness :
    (rateStep 2 100 [("a", (⟨1, 100⟩ : RateWindow)), ("b", ⟨1, 100⟩)]
        "c" 0).1.length ≤ 2 ∧
    (runMessages 2 100 [("a", (⟨1, 100⟩ : RateWindow)), ("b", ⟨1, 100⟩)]
        [("c", 0), ("d", 5)]).length ≤ 2 ∧
    ([("a", (⟨1, 100⟩ : RateWindow)), ("b", ⟨1, 100⟩)].length = 2 →
      (mapGet [("a", (⟨1, 100⟩ : RateWindow)), ("b", ⟨1, 100⟩)] "c" = none ∨
        ∃ w, mapGet [("a", (⟨1, 100⟩ : RateWindow)), ("b", ⟨1, 100⟩)] "c" =
          some w ∧ 0 > w.expires) →
      rateStep 2 100 [("a", (⟨1, 100⟩ : RateWindow)), ("b", ⟨1, 100⟩)] "c" 0 =
        (mapSet [("a", (⟨1, 100⟩ : RateWindow)), ("b", ⟨1, 100⟩)].tail "c"
          ⟨1, 0 + 60000⟩, decide ((1 : Int) ≤ 100))) :=
  C8_rate_table_bounded 2 100 [("a", ⟨1, 100⟩), ("b", ⟨1, 100⟩)] "c" 0
    [("c", 0), ("d", 5)] (by decide) (by decide)

theorem containsKey_append (c₁ c₂ : List (K × V)) (k : K) :
    containsKey (c₁ ++ c₂) k = (containsKey c₁ k || containsKey c₂ k) := by
  induction c₁ with
  | nil => simp [containsKey, mapGet]
  | cons hd tl ih =>
    obtain ⟨k₀, v₀⟩ := hd
    by_cases h : k = k₀
    · simp [containsKey, mapGet, h]
    · simp [containsKey, mapGet, h] at ih ⊢
      simpa using ih

theorem mapGet_eq_none_of_not_mem (c : List (K × V)) (k : K)
    (h : k ∉ c.map Prod.fst) : mapGet c k = none := by
  induction c with
  | nil => rfl
  | cons hd tl ih =>
    obtain ⟨k₀, v₀⟩ := hd
    simp only [List.map_cons, List.mem_cons] at h
    push_neg at h
    simp [mapGet, h.1, ih h.2]

theorem mapSet_of_not_contains (c : List (K × V)) (k : K) (v : V)
    (h : containsKey c k = false) : mapSet c k v = c ++ [(k, v)] := by
  induction c with
  | nil => rfl
  | cons hd tl ih =>
    obtain ⟨k₀, v₀⟩ := hd
    simp only [containsKey, mapGet] at h
    by_cases hk : k = k₀
    · simp [hk] at h
    · simp only [mapSet, if_neg hk, List.cons_append, List.cons.injEq, true_and]
      exact ih (by simpa [containsKey, hk] using h)

theorem keys_mapSet_of_contains (c : List (K × V)) (k : K) (v : V)
    (h : containsKey c k = true) :
    (mapSet c k v).map Prod.fst = c.map Prod.fst := by
  induction c with
  | nil => simp [containsKey, mapGet] at h
  | cons hd tl ih =>
    obtain ⟨k₀, v₀⟩ := hd
    by_cases hk : k = k₀
    · simp [mapSet, hk]
    · simp only [mapSet, if_neg hk, List.map_cons, List.cons.injEq, true_and]
      exact ih (by simpa [containsKey, mapGet, hk] using h)

theorem cacheFileMeta_at_capacity (limit : Nat) (cache : List (K × FileMeta))
    (k : K) (m : FileMeta) (h : limit ≤ cache.length) :
    cacheFileMeta limit cache k m = mapSet cache.tail k m := by
  simp [cacheFileMeta, h]

theorem cacheFileMeta_below (limit : Nat) (cache : List (K × FileMeta))
    (k : K) (m : FileMeta) (h : cache.length < limit) :
    cacheFileMeta limit cache k m = mapSet cache k m := by
  simp [cacheFileMeta, not_le.mpr h]

theorem insertAll_fresh (limit : Nat) :
    ∀ (entries cache : List (K × FileMeta)),
    (∀ e ∈ entries, containsKey cache e.1 = false) →
    (entries.map Prod.fst).Nodup →
    cache.length + entries.length ≤ limit →
    insertAll limit cache entries = cache ++ entries := by
  intro entries
  induction entries with
  | nil => intro cache _ _ _; simp [insertAll]
  | cons e rest ih =>
    intro cache hfresh hnodup hlen
    obtain ⟨k, m⟩ := e
    simp only [List.length_cons] at hlen
    have hbelow : cache.length < limit := by omega
    have hstep : cacheFileMeta limit cache k m = cache ++ [(k, m)] := by
      rw [cacheFileMeta_below limit cache k m hbelow]
      exact mapSet_of_not_contains cache k m
        (hfresh (k, m) (List.mem_cons_self _ _))
    simp only [List.map_cons, List.nodup_cons] at hnodup
    have hfresh' : ∀ e' ∈ rest, containsKey (cache ++ [(k, m)]) e'.1 = false := by
      intro e' he'
      rw [containsKey_append]
      have h1 := hfresh e' (List.mem_cons_of_mem _ he')
      have h2 : containsKey [(k, m)] e'.1 = false := by
        have : e'.1 ≠ k := by
          intro hh
          exact hnodup.1 (hh ▸ List.mem_map_of_mem Prod.fst he')
        simp [containsKey, mapGet, this]
      simp [h1, h2]
    have := ih (cache ++ [(k, m)]) hfresh' hnodup.2
      (by simpa using by omega)
    simp only [insertAll, hstep, this, List.append_assoc, List.singleton_append]

theorem insertAll_append (limit : Nat) :
    ∀ (l₁ l₂ cache : List (K × FileMeta)),
    insertAll limit cache (l₁ ++ l₂) =
      insertAll limit (insertAll limit cache l₁) l₂ := by
  intro l₁
  induction l₁ with
  | nil => intro l₂ cache; rfl
  | cons e rest ih =>
    intro l₂ cache
    obtain ⟨k, m⟩ := e
    simp only [List.cons_append, insertAll]
    exact ih l₂ (cacheFileMeta limit cache k m)

set_option maxRecDepth 10000 in
/-- C7 counterexample: with the cache at its default capacity of 1000
holding keys 0..999, re-inserting the already-present key 0 and then
inserting the fresh key 1000 leaves key 0 in the cache and evicts key 1.
Under the claim the re-insert would not change key 0's eviction order, so
the 1001st distinct key would evict key 0 and key 1 would survive; the
code does the opposite. -/
theorem C7_cache_counterexample :
    containsKey cexStep2 0 = true ∧ containsKey cexStep2 1 = false := by
  constructor
  · decide
  · decide

/-- C7 amended: inserting capacity+1 distinct keys starting from an empty
cache evicts exactly the first-inserted key; a put issued when the cache is
at capacity always evicts the current earliest-inserted entry first (even
when the written key is already present, which moves a re-inserted oldest
key to the newest position); re-inserting a present key below capacity
keeps the key order unchanged; and lookups of present keys never mutate
the cache. -/
theorem C7_cache_fifo_amended (limit : Nat) (cache : List (String × FileMeta))
    (k : String) (m m₀ : FileMeta) (d : Option FileMeta) (ks : List String)
    (hnodup : ks.Nodup) (hlen : ks.length = limit + 1) (hpos : 0 < limit) :
    (insertAll limit [] (ks.map (fun k' => (k', m))) =
        (ks.map (fun k' => (k', m))).tail ∧
      ∀ k₀, ks.head? = some k₀ →
        mapGet (insertAll limit [] (ks.map (fun k' => (k', m)))) k₀ = none) ∧
    (limit ≤ cache.length →
      cacheFileMeta limit cache k m = mapSet cache.tail k m) ∧
    (cache.length < limit → containsKey cache k = true →
      (cacheFileMeta limit cache k m).map Prod.fst = cache.map Prod.fst) ∧
    (mapGet cache k = some m₀ →
      getCachedFileMeta limit cache k d = (some m₀, cache)) := by
  have hmain : insertAll limit [] (ks.map (fun k' => (k', m))) =
      (ks.map (fun k' => (k', m))).tail := by
    rcases List.eq_nil_or_concat ks with hnil | ⟨ks₁, klast, hks⟩
    · subst hnil
      simp at hlen
    · subst hks
      rw [List.concat_eq_append] at hnodup hlen ⊢
      rw [List.nodup_append] at hnodup
      obtain ⟨hnd₁, _, hdisj⟩ := hnodup
      have hlen₁ : ks₁.length = limit := by
        simp only [List.length_append, List.length_singleton] at hlen
        omega
      have hkeys : (ks₁.map (fun k' => (k', m))).map Prod.fst = ks₁ := by
        simp [Function.comp_def]
      have h₁ : insertAll limit [] (ks₁.map (fun k' => (k', m))) =
          ks₁.map (fun k' => (k', m)) := by
        have := insertAll_fresh limit (ks₁.map (fun k' => (k', m))) []
          (fun e _ => rfl) (by rw [hkeys]; exact hnd₁)
          (by simp only [List.length_nil, List.length_map, Nat.zero_add,
            hlen₁, le_refl])
        simpa using this
      have hmem : klast ∉ ks₁ := by
        intro hmem
        exact hdisj hmem (List.mem_singleton_self klast)
      have h₄ : containsKey (ks₁.map (fun k' => (k', m))).tail klast = false := by
        have hnotmem : klast ∉ (ks₁.map (fun k' => (k', m))).tail.map Prod.fst := by
          intro hmem'
          have hsub : ((ks₁.map (fun k' => (k', m))).tail.map Prod.fst).Sublist
              ((ks₁.map (fun k' => (k', m))).map Prod.fst) :=
            (List.tail_sublist _).map Prod.fst
          have := hsub.subset hmem'
          rw [hkeys] at this
          exact hmem this
        simp [containsKey, mapGet_eq_none_of_not_mem _ _ hnotmem]
      have hcap : limit ≤ (ks₁.map (fun k' => (k', m))).length := by
        simp [hlen₁]
      obtain ⟨p, ps, hp⟩ : ∃ p ps, ks₁.map (fun k' => (k', m)) = p :: ps := by
        cases hks₁ : ks₁ with
        | nil =>
          rw [hks₁] at hlen₁
          simp at hlen₁
          omega
        | cons a as =>
          exact ⟨(a, m), as.map (fun k' => (k', m)), by simp⟩
      rw [List.map_append, insertAll_append, h₁]
      show insertAll limit (ks₁.map fun k' => (k', m))
        (List.map (fun k' => (k', m)) [klast]) = _
      simp only [List.map_singleton]
      show insertAll limit
        (cacheFileMeta limit (ks₁.map fun k' => (k', m)) klast m) [] = _
      rw [insertAll, cacheFileMeta_at_capacity _ _ _ _ hcap,
        mapSet_of_not_contains _ _ _ h₄, hp]
      simp
  refine ⟨⟨hmain, ?_⟩,
    fun h => cacheFileMeta_at_capacity limit cache k m h,
    fun h1 h2 => by rw [cacheFileMeta_below limit cache k m h1,
      keys_mapSet_of_contains cache k m h2],
    fun h => by simp [getCachedFileMeta, h]⟩
  intro k₀ hhead
  rcases ks with _ | ⟨k₀', kt⟩
  · simp at hhead
  · simp only [List.head?_cons, Option.some.injEq] at hhead
    subst hhead
    rw [hmain]
    simp only [List.map_cons, List.tail_cons]
    apply mapGet_eq_none_of_not_mem
    have : (kt.map (fun k' => (k', m))).map Prod.fst = kt := by
      simp [Function.comp_def]
    rw [this]
    exact (List.nodup_cons.mp hnodup).1

/-- Witness for C7 amended at capacity 2 with three distinct keys and a
present-key cache. -/
theorem C7_cache_fifo_amended_witness :
    (insertAll 2 [] (["a", "b", "c"].map (fun k' => (k', meta0))) =
        (["a", "b", "c"].map (fun k' => (k', meta0))).tail ∧
      ∀ k₀, ["a", "b", "c"].head? = some k₀ →
        mapGet (insertAll 2 [] (["a", "b", "c"].map (fun k' => (k', meta0))))
          k₀ = none) ∧
    (2 ≤ [("x", meta0), ("y", meta0)].length →
      cacheFileMeta 2 [("x", meta0), ("y", meta0)] "x" meta0 =
        mapSet [("x", meta0), ("y", meta0)].tail "x" meta0) ∧
    ([("x", meta0), ("y", meta0)].length < 2 →
      containsKey [("x", meta0), ("y", meta0)] "x" = true →
      (cacheFileMeta 2 [("x", meta0), ("y", meta0)] "x" meta0).map Prod.fst =
        [("x", meta0), ("y", meta0)].map Prod.fst) ∧
    (mapGet [("x", meta0), ("y", meta0)] "x" = some meta0 →
      getCachedFileMeta 2 [("x", meta0), ("y", meta0)] "x" none =
        (some meta0, [("x", meta0), ("y", meta0)])) :=
  C7_cache_fifo_amended 2 [("x", meta0), ("y", meta0)] "x" meta0 meta0 none
    ["a", "b", "c"] (by decide) (by decide) (by decide)

/-- C5: the relay handler is not exception-safe. A file message whose
content field is absent reaches `msg.content.startsWith` outside the `try`
block, and the property access on `undefined` throws a TypeError that
escapes the handler. The claim (and the spec's no-fatal-error policy) says
such a message is dropped or rejected; the code throws instead. -/
theorem C5_file_message_without_content_throws :
    handleMessage ⟨1000, 100, "sock1", "ip1", 0⟩ (fun _ => none)
      (fun _ => []) [] [] (JSVal.obj [("type", JSVal.str "file")]) =
      Except.error JSErr.typeError := by
  rfl

theorem mapGet_triple_set_ne (f : List (String × JSVal)) (k k₁ k₂ k₃ : String)
    (w₁ w₂ w₃ : JSVal) (h₁ : k ≠ k₁) (h₂ : k ≠ k₂) (h₃ : k ≠ k₃) :
    mapGet (mapSet (mapSet (mapSet f k₁ w₁) k₂ w₂) k₃ w₃) k = mapGet f k := by
  rw [mapGet_set_ne _ _ _ _ h₃, mapGet_set_ne _ _ _ _ h₂,
    mapGet_set_ne _ _ _ _ h₁]

theorem dispatchMsg_broadcast_senderId
    (metaOf : String → Option FileMeta) (decode : String → List Nat)
    (rs1 t : List (String × RateWindow)) (f3 : List (String × JSVal))
    (v m' : JSVal)
    (hsid : mapGet f3 "senderId" = some v)
    (h : dispatchMsg metaOf decode rs1 (.obj f3) = .ok (t, .broadcast m')) :
    getField m' "senderId" = .ok v := by
  have hpres1 : ∀ w : JSVal, mapGet (mapSet f3 "name" w) "senderId" = some v :=
    fun w => by rw [mapGet_set_ne _ _ _ _ (by decide)]; exact hsid
  have hpres3 : ∀ w₁ w₂ w₃ : JSVal,
      mapGet (mapSet (mapSet (mapSet f3 "name" w₁) "fileType" w₂) "size" w₃)
        "senderId" = some v := fun w₁ w₂ w₃ => by
    rw [mapGet_triple_set_ne f3 "senderId" "name" "fileType" "size" w₁ w₂ w₃
      (by decide) (by decide) (by decide)]
    exact hsid
  rw [dispatchMsg] at h
  simp only [getField, setField, stampAndBroadcast] at h
  split at h
  · -- text branch
    split at h
    all_goals try exact absurd h (by simp)
    -- string content
    split at h
    · injection h with hpair
      injection hpair with h1 h2
      injection h2 with h3
      subst h3
      simp [getField, hsid]
    · exact absurd h (by simp)
  · -- non-text
    split at h
    · exact absurd h (by simp)
    · -- file branch
      split at h
      · exact absurd h (by simp)
      · split at h
        · exact absurd h (by simp)
        · split at h
          · exact absurd h (by simp)
          · split at h
            · exact absurd h (by simp)
            · split at h
              · -- uploads reference
                split at h
                · exact absurd h (by simp)
                · injection h with hpair
                  injection hpair with h1 h2
                  injection h2 with h3
                  subst h3
                  simp only [getField, hpres3, Option.getD_some]
              · -- inline data blob
                split at h
                · exact absurd h (by simp)
                · injection h with hpair
                  injection hpair with h1 h2
                  injection h2 with h3
                  subst h3
                  simp only [getField, hpres3, Option.getD_some]

/-- C10: whenever the handler broadcasts a message, the broadcast
`senderId` equals the connection id of the originating socket; whatever
`senderId` the client supplied in the inbound payload is overwritten
before any branch can broadcast. -/
theorem C10_senderid_overridden (ctx : HandlerCtx)
    (metaOf : String → Option FileMeta) (decode : String → List Nat)
    (table : List (String × RateWindow)) (hues : List (String × ℚ))
    (msg : JSVal) (t : List (String × RateWindow)) (m' : JSVal)
    (h : handleMessage ctx metaOf decode table hues msg =
      .ok (t, .broadcast m')) :
    getField m' "senderId" = .ok (.str ctx.socketId) := by
  rw [handleMessage] at h
  split at h
  · exact absurd h (by simp)
  · cases msg with
    | obj f =>
      rw [show enrichMsg ctx.socketId ctx.now
          ((mapGet hues ctx.socketId).getD 210) (JSVal.obj f) =
          .ok (.obj (mapSet (mapSet (mapSet f "senderId"
            (.str ctx.socketId)) "timestamp" (.num ctx.now)) "hue"
            (.num ((mapGet hues ctx.socketId).getD 210)))) from rfl] at h
      refine dispatchMsg_broadcast_senderId _ _ _ _ _ _ _ ?_ h
      rw [mapGet_set_ne _ _ _ _ (by decide),
        mapGet_set_ne _ _ _ _ (by decide), mapGet_set_self]
    | null => exact absurd h (by simp [enrichMsg, setField])
    | undefined => exact absurd h (by simp [enrichMsg, setField])
    | bool b => exact absurd h (by simp [enrichMsg, setField])
    | num q => exact absurd h (by simp [enrichMsg, setField])
    | str s => exact absurd h (by simp [enrichMsg, setField])

/-- Witness for C10: a text message carrying a forged senderId is broadcast
with the sender's real connection id. -/
theorem C10_senderid_overridden_witness :
    getField (JSVal.obj [("type", JSVal.str "text"),
      ("content", JSVal.str "hi"), ("senderId", JSVal.str "sock"),
      ("timestamp", JSVal.num 0), ("hue", JSVal.num 210)]) "senderId" =
      .ok (.str "sock") :=
  C10_senderid_overridden ⟨1000, 100, "sock", "ip", 0⟩ (fun _ => none)
    (fun _ => []) [] []
    (JSVal.obj [("type", JSVal.str "text"), ("content", JSVal.str "hi"),
      ("senderId", JSVal.str "evil")])
    [("ip", ⟨1, 60000⟩)]
    (JSVal.obj [("type", JSVal.str "text"), ("content", JSVal.str "hi"),
      ("senderId", JSVal.str "sock"), ("timestamp", JSVal.num 0),
      ("hue", JSVal.num 210)])
    (by rfl)

/-- C3: for an identity with no live window, the burst starting at `t₀`
with follow-ups inside the same 60000 ms window has its i-th message
(0-based) allowed exactly when i+1 is within the ceiling — so the first
`ceiling` messages pass and the next is rejected; a message arriving after
the window's expiry gets a fresh window with count 1; and a rejected
message makes the handler emit the rate-limit error to the sender alone,
with no broadcast and no further processing. -/
theorem C3_rate_limit_window (capIps : Nat) (limit : Int)
    (table table' : List (String × RateWindow)) (id : String) (t₀ : Int)
    (ts : List Int) (i : Nat) (c e t' : Int) (ctx : HandlerCtx)
    (metaOf : String → Option FileMeta) (decode : String → List Nat)
    (hues : List (String × ℚ)) (msg : JSVal)
    (habs : mapGet table id = none)
    (hin : ∀ t ∈ ts, t ≤ t₀ + 60000)
    (hi : i < ts.length + 1) :
    ((runId capIps limit table id (t₀ :: ts)).2.getD i false =
      decide ((i : Int) + 1 ≤ limit)) ∧
    (mapGet table' id = some ⟨c, e⟩ → t' > e →
      mapGet (rateStep capIps limit table' id t').1 id =
        some ⟨1, t' + 60000⟩ ∧
      (rateStep capIps limit table' id t').2 = decide (1 ≤ limit)) ∧
    ((rateStep ctx.capIps ctx.maxReq table' ctx.ipHash ctx.now).2 = false →
      handleMessage ctx metaOf decode table' hues msg =
        .ok ((rateStep ctx.capIps ctx.maxReq table' ctx.ipHash ctx.now).1,
          .errorToSender "Rate limit exceeded")) := by
  refine ⟨?_, ?_, ?_⟩
  · have hstep1 : rateStep capIps limit table id t₀ =
        rateFresh capIps limit table id t₀ :=
      rateStep_fresh _ _ _ _ _ (Or.inl habs)
    have hget1 : mapGet (rateStep capIps limit table id t₀).1 id =
        some ⟨1, t₀ + 60000⟩ := by
      rw [hstep1]
      exact mapGet_set_self _ _ _
    have hflag1 : (rateStep capIps limit table id t₀).2 =
        decide ((1 : Int) ≤ limit) := by
      rw [hstep1]
      rfl
    obtain ⟨hflags, -⟩ := runId_reuse_window capIps limit id ts
      (rateStep capIps limit table id t₀).1 1 (t₀ + 60000) hget1 hin
    rw [show (runId capIps limit table id (t₀ :: ts)).2 =
      (rateStep capIps limit table id t₀).2 ::
        (runId capIps limit (rateStep capIps limit table id t₀).1 id ts).2
      from rfl, hflag1, hflags]
    cases i with
    | zero =>
      simp only [List.getD_cons_zero]
      rw [decide_eq_decide]
      constructor <;> intro h <;> omega
    | succ i =>
      simp only [List.getD_cons_succ]
      rw [expectedFlags_getD limit ts.length 1 i (by omega),
        decide_eq_decide]
      push_cast
      constructor <;> intro h <;> omega
  · intro hget hexp
    have hstep : rateStep capIps limit table' id t' =
        rateFresh capIps limit table' id t' :=
      rateStep_fresh _ _ _ _ _ (Or.inr ⟨⟨c, e⟩, hget, hexp⟩)
    refine ⟨?_, by rw [hstep]; rfl⟩
    rw [hstep]
    exact mapGet_set_self _ _ _
  · intro hrej
    rw [handleMessage]
    simp [hrej]

/-- Witness for C3: ceiling 2, three messages inside one window from one
identity; the third is rejected, and concrete expiry and rejection
scenarios. -/
theorem C3_rate_limit_window_witness :
    ((runId 1000 2 [] "ip" ([0, 1, 2] : List Int)).2.getD 2 false =
      decide ((2 : Int) + 1 ≤ 2)) ∧
    (mapGet [("ip", (⟨5, 99999⟩ : RateWindow))] "ip" = some ⟨5, 99999⟩ →
      (100000 : Int) > 99999 →
      mapGet (rateStep 1000 2 [("ip", (⟨5, 99999⟩ : RateWindow))] "ip"
        100000).1 "ip" = some ⟨1, 100000 + 60000⟩ ∧
      (rateStep 1000 2 [("ip", (⟨5, 99999⟩ : RateWindow))] "ip" 100000).2 =
        decide ((1 : Int) ≤ 2)) ∧
    ((rateStep 1000 2 [("ip", (⟨5, 99999⟩ : RateWindow))] "ip" 100).2 =
        false →
      handleMessage ⟨1000, 2, "sock", "ip", 100⟩ (fun _ => none)
        (fun _ => []) [("ip", (⟨5, 99999⟩ : RateWindow))] []
        (JSVal.str "spam") =
        .ok ((rateStep 1000 2 [("ip", (⟨5, 99999⟩ : RateWindow))]
          "ip" 100).1, .errorToSender "Rate limit exceeded")) :=
  C3_rate_limit_window 1000 2 [] [("ip", ⟨5, 99999⟩)] "ip" 0 [1, 2] 2 5
    99999 100000 ⟨1000, 2, "sock", "ip", 100⟩ (fun _ => none) (fun _ => [])
    [] (JSVal.str "spam") (by rfl) (by decide) (by decide)

theorem isText_eq (l : List Nat) : isText l = !decide ((0 : Nat) ∈ l) := by
  simp [isText, List.contains, List.elem_eq_mem]

set_option maxRecDepth 4000 in
/-- C4 counterexample: 512 letter bytes followed by one null byte match no
signature and have no null byte in their first 512 bytes, yet the
inline-blob branch classifies them as application/octet-stream because its
null-byte scan covers the whole buffer; the file branch, scanning only the
512-byte head, says text/plain. The claim predicts text/plain for both. -/
theorem C4_mime_counterexample :
    sniffSignature cexBuf = none ∧
    isText (cexBuf.take 512) = true ∧
    inlineMime cexBuf = "application/octet-stream" ∧
    fileMime cexBuf = "text/plain" := by
  refine ⟨by decide, by decide, by decide, by decide⟩

/-- C4 amended: a buffer led by a known signature reports that signature's
MIME type regardless of trailing content; with no signature match, a file
source is classified by the null-byte scan of its first 512 bytes, while
an in-memory inline blob is classified by a null-byte scan of the entire
buffer; the detected size is the full byte length. -/
theorem C4_mime_detection_amended (b rest : List Nat)
    (hnone : sniffSignature b = none) :
    (sniffSignature (pngSignature ++ rest) = some "image/png" ∧
     sniffSignature (jpegSignature ++ rest) = some "image/jpeg" ∧
     sniffSignature (gifSignature ++ rest) = some "image/gif" ∧
     sniffSignature (pdfSignature ++ rest) = some "application/pdf") ∧
    fileMime b =
      (if (0 : Nat) ∈ b.take 512 then "application/octet-stream"
       else "text/plain") ∧
    inlineMime b =
      (if (0 : Nat) ∈ b then "application/octet-stream" else "text/plain") ∧
    detectFileMeta b = ⟨fileMime b, b.length⟩ := by
  refine ⟨⟨?_, ?_, ?_, ?_⟩, ?_, ?_, rfl⟩
  · simp [sniffSignature, signatureTable, pngSignature, jpegSignature,
      gifSignature, pdfSignature, bytesMatch]
  · simp [sniffSignature, signatureTable, pngSignature, jpegSignature,
      gifSignature, pdfSignature, bytesMatch]
  · simp [sniffSignature, signatureTable, pngSignature, jpegSignature,
      gifSignature, pdfSignature, bytesMatch]
  · simp [sniffSignature, signatureTable, pngSignature, jpegSignature,
      gifSignature, pdfSignature, bytesMatch]
  · rw [fileMime, hnone, isText_eq]
    by_cases h : (0 : Nat) ∈ b.take 512 <;> simp [h]
  · rw [inlineMime, hnone, isText_eq]
    by_cases h : (0 : Nat) ∈ b <;> simp [h]

/-- Witness for C4 amended: a one-byte letter buffer with no signature
match is text/plain under both classifications. -/
theorem C4_mime_detection_amended_witness :
    (sniffSignature (pngSignature ++ [7]) = some "image/png" ∧
     sniffSignature (jpegSignature ++ [7]) = some "image/jpeg" ∧
     sniffSignature (gifSignature ++ [7]) = some "image/gif" ∧
     sniffSignature (pdfSignature ++ [7]) = some "application/pdf") ∧
    fileMime [65] =
      (if (0 : Nat) ∈ ([65] : List Nat).take 512 then
        "application/octet-stream" else "text/plain") ∧
    inlineMime [65] =
      (if (0 : Nat) ∈ ([65] : List Nat) then "application/octet-stream"
       else "text/plain") ∧
    detectFileMeta [65] = ⟨fileMime [65], ([65] : List Nat).length⟩ :=
  C4_mime_detection_amended [65] [7] (by decide)

theorem hueFold_cases : ∀ (l : List (ℚ × ℚ)) (s : ℚ × ℚ),
    (hueFold l s = s ∧ ∀ p ∈ l, gapOf p ≤ s.1) ∨
    (∃ i, ∃ h : i < l.length,
      hueFold l s = (gapOf (l.get ⟨i, h⟩), midOf (l.get ⟨i, h⟩)) ∧
      s.1 < gapOf (l.get ⟨i, h⟩) ∧
      (∀ j, ∀ hj : j < l.length,
        gapOf (l.get ⟨j, hj⟩) ≤ gapOf (l.get ⟨i, h⟩)) ∧
      (∀ j, ∀ hj : j < i,
        gapOf (l.get ⟨j, Nat.lt_trans hj h⟩) < gapOf (l.get ⟨i, h⟩))) := by
  intro l
  induction l with
  | nil =>
    intro s
    left
    exact ⟨rfl, by simp⟩
  | cons p rest ih =>
    intro s
    by_cases hup : s.1 < gapOf p
    · have hfold : hueFold (p :: rest) s = hueFold rest (gapOf p, midOf p) := by
        rw [hueFold, if_pos hup]
      rcases ih (gapOf p, midOf p) with ⟨heq, hall⟩ | ⟨i, h, heq, hgt, hmax, hfirst⟩
      · right
        refine ⟨0, by simp, by rw [hfold, heq]; rfl, hup, ?_, ?_⟩
        · intro j hj
          cases j with
          | zero => simp
          | succ j =>
            have := hall _ (List.get_mem rest j (by simpa using hj))
            simpa using this
        · intro j hj
          exact absurd hj (Nat.not_lt_zero j)
      · right
        refine ⟨i + 1, Nat.succ_lt_succ h, ?_, ?_, ?_, ?_⟩
        · rw [hfold, heq]
          rfl
        · exact lt_trans hup (by simpa using hgt)
        · intro j hj
          cases j with
          | zero => exact le_of_lt (by simpa using hgt)
          | succ j => exact hmax j (by simpa using hj)
        · intro j hj
          cases j with
          | zero => exact (by simpa using hgt)
          | succ j => exact hfirst j (by omega)
    · have hfold : hueFold (p :: rest) s = hueFold rest s := by
        rw [hueFold, if_neg hup]
      rcases ih s with ⟨heq, hall⟩ | ⟨i, h, heq, hgt, hmax, hfirst⟩
      · left
        refine ⟨by rw [hfold, heq], ?_⟩
        intro q hq
        rcases List.mem_cons.mp hq with rfl | hq'
        · exact not_lt.mp hup
        · exact hall q hq'
      · right
        refine ⟨i + 1, Nat.succ_lt_succ h, ?_, ?_, ?_, ?_⟩
        · rw [hfold, heq]
          rfl
        · simpa using hgt
        · intro j hj
          cases j with
          | zero => exact le_of_lt (lt_of_le_of_lt (not_lt.mp hup) (by simpa using hgt))
          | succ j => exact hmax j (by simpa using hj)
        · intro j hj
          cases j with
          | zero => exact lt_of_le_of_lt (not_lt.mp hup) (by simpa using hgt)
          | succ j => exact hfirst j (by omega)

theorem mem_zip_rot : ∀ (l : List ℚ) (x a : ℚ) (p : ℚ × ℚ),
    p ∈ (x :: l).zip (l ++ [a]) →
    (∃ l₁ l₂, x :: l = l₁ ++ p.1 :: p.2 :: l₂) ∨
    (p = ((x :: l).getLast (List.cons_ne_nil x l), a)) := by
  intro l
  induction l with
  | nil =>
    intro x a p hp
    simp only [List.nil_append, List.zip_cons_cons, List.zip_nil_right,
      List.mem_singleton] at hp
    right
    simpa using hp
  | cons b l' ih =>
    intro x a p hp
    simp only [List.cons_append, List.zip_cons_cons, List.mem_cons] at hp
    rcases hp with rfl | hp'
    · exact Or.inl ⟨[], l', rfl⟩
    · rcases ih b a p hp' with ⟨l₁, l₂, hdec⟩ | hlast
      · refine Or.inl ⟨x :: l₁, l₂, ?_⟩
        rw [List.cons_append, hdec]
      · right
        rw [hlast]
        congr 1

theorem sorted_le_getLast : ∀ (l : List ℚ) (hne : l ≠ []),
    l.Sorted (· < ·) → ∀ y ∈ l, y ≤ l.getLast hne := by
  intro l
  induction l with
  | nil => intro hne; exact absurd rfl hne
  | cons x l' ih =>
    intro hne hsort y hy
    cases l' with
    | nil =>
      simp only [List.mem_singleton] at hy
      simp [hy]
    | cons b l'' =>
      rw [List.getLast_cons (List.cons_ne_nil b l'')]
      rcases List.mem_cons.mp hy with rfl | hy'
      · have hxb : y < b := (List.pairwise_cons.mp hsort).1 b
          (List.mem_cons_self b l'')
        exact le_trans (le_of_lt hxb)
          (ih (List.cons_ne_nil b l'') (List.pairwise_cons.mp hsort).2 b
            (List.mem_cons_self b l''))
      · exact ih (List.cons_ne_nil b l'') (List.pairwise_cons.mp hsort).2 y hy'

theorem jsMod360_small (x : ℚ) (h0 : 0 ≤ x) (h1 : x < 360) :
    jsMod360 x = x := by
  have hfloor : ⌊x / 360⌋ = 0 := by
    rw [Int.floor_eq_zero_iff, Set.mem_Ico]
    constructor
    · positivity
    · rw [div_lt_one (by norm_num)]
      exact h1
  simp [jsMod360, hfloor]

theorem jsMod360_wrap (x : ℚ) (h0 : 360 ≤ x) (h1 : x < 720) :
    jsMod360 x = x - 360 := by
  have hfloor : ⌊x / 360⌋ = 1 := by
    rw [Int.floor_eq_iff]
    constructor
    · rw [le_div_iff₀ (by norm_num)]
      push_cast
      linarith
    · rw [div_lt_iff₀ (by norm_num)]
      push_cast
      linarith
  rw [jsMod360, hfloor]
  push_cast
  ring

theorem adj_pair_facts (hs l₁ l₂ : List ℚ) (c nx : ℚ)
    (hdecomp : hs = l₁ ++ c :: nx :: l₂)
    (hsort : hs.Sorted (· < ·)) (hrange : ∀ y ∈ hs, 0 ≤ y ∧ y < 360) :
    0 < gapOf (c, nx) ∧ midOf (c, nx) ∉ hs := by
  subst hdecomp
  rw [List.Sorted, List.pairwise_append] at hsort
  obtain ⟨hp₁, hp₂, hcross⟩ := hsort
  have hcnx : c < nx := (List.pairwise_cons.mp hp₂).1 nx
    (List.mem_cons_self nx l₂)
  have hcmem : c ∈ l₁ ++ c :: nx :: l₂ := by simp
  have hnxmem : nx ∈ l₁ ++ c :: nx :: l₂ := by simp
  have hc0 : 0 ≤ c := (hrange c hcmem).1
  have hnx360 : nx < 360 := (hrange nx hnxmem).2
  have hgap : gapOf (c, nx) = nx - c := by
    rw [gapOf, if_neg]
    simp only [not_le]
    linarith
  have hgpos : 0 < gapOf (c, nx) := by rw [hgap]; linarith
  refine ⟨hgpos, ?_⟩
  have hmid : midOf (c, nx) = c + (nx - c) / 2 := by
    rw [midOf, hgap, jsMod360_small] <;> simp only [] <;> linarith
  intro hmem
  have hsep : ∀ y ∈ l₁ ++ c :: nx :: l₂, y ≤ c ∨ nx ≤ y := by
    intro y hy
    rcases List.mem_append.mp hy with hy₁ | hy₂
    · exact Or.inl (le_of_lt (hcross y hy₁ c (List.mem_cons_self c _)))
    · rcases List.mem_cons.mp hy₂ with rfl | hy₃
      · exact Or.inl le_rfl
      · rcases List.mem_cons.mp hy₃ with rfl | hy₄
        · exact Or.inr le_rfl
        · exact Or.inr (le_of_lt ((List.pairwise_cons.mp
            (List.pairwise_cons.mp hp₂).2).1 y hy₄))
  rcases hsep _ hmem with hle | hge
  · rw [hmid] at hle
    linarith
  · rw [hmid] at hge
    linarith

theorem wrap_pair_facts (x : ℚ) (l : List ℚ)
    (hsort : (x :: l).Sorted (· < ·))
    (hrange : ∀ y ∈ x :: l, 0 ≤ y ∧ y < 360) :
    0 < gapOf ((x :: l).getLast (List.cons_ne_nil x l), x) ∧
    midOf ((x :: l).getLast (List.cons_ne_nil x l), x) ∉ x :: l := by
  set g := (x :: l).getLast (List.cons_ne_nil x l) with hg
  have hgmem : g ∈ x :: l := List.getLast_mem _
  have hxmem : x ∈ x :: l := List.mem_cons_self x l
  have hx0 : 0 ≤ x := (hrange x hxmem).1
  have hg360 : g < 360 := (hrange g hgmem).2
  have hg0 : 0 ≤ g := (hrange g hgmem).1
  have hx360 : x < 360 := (hrange x hxmem).2
  have hxg : x ≤ g := sorted_le_getLast (x :: l) (List.cons_ne_nil x l)
    hsort x hxmem
  have hmax : ∀ y ∈ x :: l, y ≤ g :=
    sorted_le_getLast (x :: l) (List.cons_ne_nil x l) hsort
  have hmin : ∀ y ∈ x :: l, x ≤ y := by
    intro y hy
    rcases List.mem_cons.mp hy with rfl | hy'
    · exact le_rfl
    · exact le_of_lt ((List.pairwise_cons.mp hsort).1 y hy')
  have hgap : gapOf (g, x) = x - g + 360 := by
    rw [gapOf, if_pos]
    simp only []
    linarith
  have hgpos : 0 < gapOf (g, x) := by rw [hgap]; linarith
  refine ⟨hgpos, ?_⟩
  have hm0 : midOf (g, x) = jsMod360 (g + (x - g + 360) / 2) := by
    rw [midOf, hgap]
  by_cases hcase : g + (x - g + 360) / 2 < 360
  · have hmid : midOf (g, x) = g + (x - g + 360) / 2 := by
      rw [hm0, jsMod360_small] <;> linarith
    intro hmem
    have := hmax _ hmem
    rw [hmid] at this
    linarith
  · have hmid : midOf (g, x) = g + (x - g + 360) / 2 - 360 := by
      rw [hm0, jsMod360_wrap]
      · linarith
      · linarith
    intro hmem
    have := hmin _ hmem
    rw [hmid] at this
    linarith

theorem pair_facts_of_mem (hs : List ℚ) (hslt : hs.Sorted (· < ·))
    (hrange : ∀ y ∈ hs, 0 ≤ y ∧ y < 360) (p : ℚ × ℚ)
    (hp : p ∈ adjPairs hs) : 0 < gapOf p ∧ midOf p ∉ hs := by
  cases hs with
  | nil => simp [adjPairs] at hp
  | cons x l =>
    have hp' : p ∈ (x :: l).zip (l ++ [x]) := by simpa [adjPairs] using hp
    rcases mem_zip_rot l x x p hp' with ⟨l₁, l₂, hdec⟩ | hlast
    · have := adj_pair_facts (x :: l) l₁ l₂ p.1 p.2 hdec hslt hrange
      simpa using this
    · rw [hlast]
      exact wrap_pair_facts x l hslt hrange

/-- C6: hue assignment returns the fixed default 210 for the empty set of
active hues; for a non-empty set of pairwise-distinct hues in the range
[0, 360) it returns the midpoint of the pair realizing the first maximal
forward gap (including the wrap-around pair, first gap winning exact
ties), and the returned hue is not already present in the set. -/
theorem C6_hue_assignment (hues : List ℚ) (hnodup : hues.Nodup)
    (hrange : ∀ y ∈ hues, 0 ≤ y ∧ y < 360) :
    assignHue [] = 210 ∧
    (hues ≠ [] → ∃ r : ℚ × ℚ,
      IsFirstMaxGap (adjPairs (hues.insertionSort (· ≤ ·))) r ∧
      assignHue hues = r.2 ∧
      assignHue hues ∉ hues) := by
  refine ⟨rfl, ?_⟩
  intro hne
  have hperm : List.Perm (hues.insertionSort (· ≤ ·)) hues :=
    List.perm_insertionSort (· ≤ ·) hues
  have hnd : (hues.insertionSort (· ≤ ·)).Nodup := hperm.symm.nodup hnodup
  have hsle : (hues.insertionSort (· ≤ ·)).Sorted (· ≤ ·) :=
    List.sorted_insertionSort (· ≤ ·) hues
  have hslt : (hues.insertionSort (· ≤ ·)).Sorted (· < ·) := by
    have h1 := hsle.and hnd
    exact h1.imp (fun hab => lt_of_le_of_ne hab.1 hab.2)
  have hrange' : ∀ y ∈ hues.insertionSort (· ≤ ·), 0 ≤ y ∧ y < 360 :=
    fun y hy => hrange y (hperm.mem_iff.mp hy)
  have hsne : hues.insertionSort (· ≤ ·) ≠ [] := by
    intro h0
    apply hne
    have hpn : List.Perm hues ([] : List ℚ) := by
      rw [← h0]
      exact hperm.symm
    exact hpn.eq_nil
  obtain ⟨x, l, hxl⟩ : ∃ x l, hues.insertionSort (· ≤ ·) = x :: l := by
    cases h : hues.insertionSort (· ≤ ·) with
    | nil => exact absurd h hsne
    | cons a b => exact ⟨a, b, rfl⟩
  have hfacts : ∀ p ∈ adjPairs (hues.insertionSort (· ≤ ·)),
      0 < gapOf p ∧ midOf p ∉ hues.insertionSort (· ≤ ·) :=
    fun p hp => pair_facts_of_mem _ hslt hrange' p hp
  have hpne : adjPairs (hues.insertionSort (· ≤ ·)) ≠ [] := by
    rw [hxl]
    cases l <;> simp [adjPairs]
  have hassign : assignHue hues =
      (hueFold (adjPairs (hues.insertionSort (· ≤ ·))) (0, 0)).2 := by
    rw [assignHue, hxl]
  rcases hueFold_cases (adjPairs (hues.insertionSort (· ≤ ·))) (0, 0) with
    ⟨heq, hall⟩ | ⟨i, h, heq, hgt, hmax, hfirst⟩
  · exfalso
    obtain ⟨p₀, hp₀⟩ := List.exists_mem_of_ne_nil _ hpne
    exact absurd (hall p₀ hp₀) (not_le.mpr (hfacts p₀ hp₀).1)
  · set ps := adjPairs (hues.insertionSort (· ≤ ·)) with hps
    refine ⟨(gapOf (ps.get ⟨i, h⟩), midOf (ps.get ⟨i, h⟩)), ⟨i, h, rfl,
      hmax, hfirst⟩, ?_, ?_⟩
    · rw [hassign, heq]
    · rw [hassign, heq]
      intro hmem
      exact (hfacts (ps.get ⟨i, h⟩) (List.get_mem ps i h)).2
        (hperm.mem_iff.mpr hmem)

/-- Witness for C6: active hues 0 and 90; the assigned hue bisects the
wrap-around gap and is new. -/
theorem C6_hue_assignment_witness :
    assignHue [] = 210 ∧
    (([0, 90] : List ℚ) ≠ [] → ∃ r : ℚ × ℚ,
      IsFirstMaxGap (adjPairs (([0, 90] : List ℚ).insertionSort (· ≤ ·))) r ∧
      assignHue [0, 90] = r.2 ∧
      assignHue [0, 90] ∉ ([0, 90] : List ℚ)) :=
  C6_hue_assignment [0, 90] (by norm_num)
    (by intro y hy; fin_cases hy <;> norm_num)

theorem collapse_nil : collapseUnderscores [] = [] := rfl

theorem collapseUnderscores_subset (t : List Char) :
    collapseUnderscores t ⊆ t := by
  induction t with
  | nil => simp [collapseUnderscores]
  | cons c tail ih =>
    cases tail with
    | nil => simp [collapseUnderscores]
    | cons d rest =>
      by_cases hcd : c == '_' && d == '_'
      · rw [collapseUnderscores, if_pos hcd]
        exact fun x hx => List.mem_cons_of_mem _ (ih hx)
      · rw [collapseUnderscores, if_neg hcd]
        intro x hx
        rcases List.mem_cons.mp hx with rfl | hx'
        · exact List.mem_cons_self _ _
        · exact List.mem_cons_of_mem _ (ih hx')

theorem dropWhile_head_not {p : Char → Bool} :
    ∀ (l t : List Char) (b : Char), l.dropWhile p = b :: t → p b = false := by
  intro l
  induction l with
  | nil => intro t b h; simp [List.dropWhile] at h
  | cons c rest ih =>
    intro t b h
    by_cases hc : p c
    · rw [List.dropWhile_cons_of_pos hc] at h
      exact ih t b h
    · rw [List.dropWhile_cons_of_neg hc] at h
      obtain ⟨rfl, -⟩ := List.cons.inj h
      exact Bool.eq_false_iff.mpr hc

theorem noDouble_tail (a : Char) (L : List Char)
    (h : noDoubleUnderscore (a :: L) = true) :
    noDoubleUnderscore L = true := by
  cases L with
  | nil => rfl
  | cons b rest =>
    rw [noDoubleUnderscore] at h
    simp only [Bool.and_eq_true] at h
    exact h.2

theorem head?_collapse (t : List Char) :
    (collapseUnderscores t).head? = t.head? := by
  induction t with
  | nil => rfl
  | cons c tail ih =>
    cases tail with
    | nil => rfl
    | cons d rest =>
      by_cases hcd : c == '_' && d == '_'
      · rw [collapseUnderscores, if_pos hcd, ih]
        simp only [Bool.and_eq_true, beq_iff_eq] at hcd
        rw [List.head?_cons, List.head?_cons, hcd.1, hcd.2]
      · rw [collapseUnderscores, if_neg hcd]
        rfl

theorem noDouble_collapse (t : List Char) :
    noDoubleUnderscore (collapseUnderscores t) = true := by
  induction t with
  | nil => rfl
  | cons c tail ih =>
    cases tail with
    | nil => rfl
    | cons d rest =>
      by_cases hcd : c == '_' && d == '_'
      · rw [collapseUnderscores, if_pos hcd]
        exact ih
      · rw [collapseUnderscores, if_neg hcd]
        cases hcol : collapseUnderscores (d :: rest) with
        | nil => rfl
        | cons b L =>
          have hb : b = d := by
            have hh := head?_collapse (d :: rest)
            rw [hcol] at hh
            simpa using hh
          have hfalse : (c == '_' && d == '_') = false :=
            Bool.eq_false_iff.mpr hcd
          rw [noDoubleUnderscore]
          simp only [Bool.and_eq_true]
          constructor
          · rw [hb, hfalse]
            rfl
          · rw [← hcol]
            exact ih

theorem noDouble_of_append : ∀ (l t : List Char),
    noDoubleUnderscore (l ++ t) = true → noDoubleUnderscore l = true := by
  intro l
  induction l with
  | nil => intro t _; rfl
  | cons a l' ih =>
    intro t h
    cases l' with
    | nil => rfl
    | cons b l'' =>
      simp only [List.cons_append] at h
      rw [noDoubleUnderscore] at h ⊢
      simp only [Bool.and_eq_true] at h ⊢
      refine ⟨h.1, ?_⟩
      exact ih t (by simpa using h.2)

theorem noDouble_of_prefix (l₁ l₂ : List Char) (h : l₁ <+: l₂)
    (hnd : noDoubleUnderscore l₂ = true) :
    noDoubleUnderscore l₁ = true := by
  obtain ⟨t, rfl⟩ := h
  exact noDouble_of_append l₁ t hnd

theorem noDouble_of_suffix (l₁ l₂ : List Char) (h : l₁ <:+ l₂)
    (hnd : noDoubleUnderscore l₂ = true) :
    noDoubleUnderscore l₁ = true := by
  obtain ⟨t, rfl⟩ := h
  induction t with
  | nil => simpa using hnd
  | cons a t' ih =>
    exact ih (noDouble_tail a (t' ++ l₁) (by simpa using hnd))

theorem trimTrailing_front (l : List Char) : trimTrailing l <+: l := by
  have h1 : List.dropWhile (fun d => d == '_') l.reverse <:+ l.reverse :=
    List.dropWhile_suffix _
  have h2 := List.reverse_prefix.mpr h1
  simpa [trimTrailing] using h2

theorem prefix_head (l₁ l₂ : List Char) (h : l₁ <+: l₂) (c : Char)
    (hc : l₁.head? = some c) : l₂.head? = some c := by
  obtain ⟨t, rfl⟩ := h
  cases l₁ with
  | nil => simp at hc
  | cons a l' => simpa using hc

theorem sanitize_prefix_chain (s : List Char) :
    sanitizeUploadName s <+:
      (collapseUnderscores (replaceDisallowed s)).dropWhile
        (fun d => d == '_') := by
  refine (trimTrailing_front _).trans ((List.take_prefix _ _).trans ?_)
  exact trimTrailing_front _

theorem head_sanitize (s : List Char) (c : Char)
    (hc : (sanitizeUploadName s).head? = some c) : (c == '_') = false := by
  have hh := prefix_head _ _ (sanitize_prefix_chain s) c hc
  cases hdw : (collapseUnderscores (replaceDisallowed s)).dropWhile
      (fun d => d == '_') with
  | nil => rw [hdw] at hh; simp at hh
  | cons b t =>
    rw [hdw] at hh
    simp only [List.head?_cons, Option.some.injEq] at hh
    subst hh
    exact dropWhile_head_not _ t b hdw

theorem trimTrailing_getLast (z : List Char) (c : Char)
    (h : (trimTrailing z).getLast? = some c) : (c == '_') = false := by
  rw [trimTrailing, List.getLast?_reverse] at h
  cases hdw : z.reverse.dropWhile (fun d => d == '_') with
  | nil => rw [hdw] at h; simp at h
  | cons b t =>
    rw [hdw] at h
    simp only [List.head?_cons, Option.some.injEq] at h
    subst h
    exact dropWhile_head_not _ t b hdw

theorem mem_sanitize (s : List Char) (c : Char)
    (hc : c ∈ sanitizeUploadName s) :
    allowedUpload c = true ∨ c = '_' := by
  have h1 : c ∈ replaceDisallowed s := by
    have h2 := (sanitize_prefix_chain s).subset hc
    have h3 := (List.dropWhile_sublist _).subset h2
    exact collapseUnderscores_subset _ h3
  obtain ⟨d, -, hd⟩ := List.mem_map.mp h1
  by_cases hall : allowedUpload d
  · rw [if_pos hall] at hd
    exact Or.inl (hd ▸ hall)
  · rw [if_neg hall] at hd
    exact Or.inr hd.symm

theorem length_sanitize (s : List Char) :
    (sanitizeUploadName s).length ≤ 100 := by
  have h1 := (trimTrailing_front
    ((trimEdgeUnderscores (collapseUnderscores
      (replaceDisallowed s))).take 100)).length_le
  have h2 : ((trimEdgeUnderscores (collapseUnderscores
      (replaceDisallowed s))).take 100).length ≤ 100 := by
    rw [List.length_take]
    exact min_le_left _ _
  exact le_trans h1 h2

theorem noDouble_sanitize (s : List Char) :
    noDoubleUnderscore (sanitizeUploadName s) = true := by
  have h0 := noDouble_collapse (replaceDisallowed s)
  have h1 := noDouble_of_suffix _ _ (List.dropWhile_suffix (fun d => d == '_'))
    h0
  exact noDouble_of_prefix _ _ (sanitize_prefix_chain s) h1

theorem underscore_not_allowed : allowedUpload '_' = false := by decide

theorem replace_id (s : List Char)
    (h : ∀ c ∈ s, allowedUpload c = true) : replaceDisallowed s = s := by
  induction s with
  | nil => rfl
  | cons c rest ih =>
    rw [replaceDisallowed, List.map_cons,
      if_pos (h c (List.mem_cons_self c rest))]
    rw [show List.map (fun c => if allowedUpload c then c else '_') rest =
      replaceDisallowed rest from rfl,
      ih (fun c hc => h c (List.mem_cons_of_mem _ hc))]

theorem no_underscore_of_allowed (s : List Char)
    (h : ∀ c ∈ s, allowedUpload c = true) :
    ∀ c ∈ s, (c == '_') = false := by
  intro c hc
  have := h c hc
  by_contra hne
  have hcu : c = '_' := by
    cases hb : (c == '_') with
    | false => exact absurd hb hne
    | true => simpa using hb
  rw [hcu, underscore_not_allowed] at this
  exact Bool.false_ne_true this

theorem collapse_id (s : List Char)
    (h : ∀ c ∈ s, (c == '_') = false) : collapseUnderscores s = s := by
  induction s with
  | nil => exact collapse_nil
  | cons c tail ih =>
    cases tail with
    | nil => rfl
    | cons d rest =>
      have hfalse : (c == '_' && d == '_') = false := by
        rw [h c (List.mem_cons_self c _)]
        rfl
      rw [collapseUnderscores, hfalse, if_neg (by simp),
        ih (fun x hx => h x (List.mem_cons_of_mem _ hx))]

theorem dropWhile_id (s : List Char)
    (h : ∀ c ∈ s, (c == '_') = false) :
    s.dropWhile (fun d => d == '_') = s := by
  cases s with
  | nil => rfl
  | cons c rest =>
    exact List.dropWhile_cons_of_neg
      (by simp [h c (List.mem_cons_self c rest)])

theorem trimTrailing_id (s : List Char)
    (h : ∀ c ∈ s, (c == '_') = false) : trimTrailing s = s := by
  rw [trimTrailing, dropWhile_id s.reverse
    (fun c hc => h c (List.mem_reverse.mp hc)), List.reverse_reverse]

theorem sanitize_id (s : List Char)
    (hall : ∀ c ∈ s, allowedUpload c = true) (hlen : s.length ≤ 100) :
    sanitizeUploadName s = s := by
  have hnu := no_underscore_of_allowed s hall
  rw [sanitizeUploadName, replace_id s hall, collapse_id s hnu,
    trimEdgeUnderscores, dropWhile_id s hnu, trimTrailing_id s hnu,
    List.take_of_length_le hlen, trimTrailing_id s hnu]

/-- C9 counterexample: the claim's character class `[a-z0-9.-]` excludes
uppercase letters and its pipeline stops at the truncation. The code keeps
uppercase letters (the regex carries the `i` flag), so original name
`A.txt` stores as `<id>-A.txt`, not the `<id>-.txt` the claim's
sanitization yields; and a 101-character base name whose 100-character cut
ends in an underscore is stored with that underscore stripped, while the
claim keeps it. -/
theorem C9_filename_counterexample :
    storedFilename ("0123456789abcdef".toList) ("A.txt".toList) =
      ("0123456789abcdef-A.txt".toList) ∧
    claimStoredFilename ("0123456789abcdef".toList) ("A.txt".toList) =
      ("0123456789abcdef-.txt".toList) ∧
    ("0123456789abcdef-A.txt".toList) ≠ ("0123456789abcdef-.txt".toList) ∧
    storedFilename ("0123456789abcdef".toList)
        (List.replicate 99 'a' ++ "_b.txt".toList) =
      ("0123456789abcdef-".toList ++ List.replicate 99 'a' ++
        ".txt".toList) ∧
    claimStoredFilename ("0123456789abcdef".toList)
        (List.replicate 99 'a' ++ "_b.txt".toList) =
      ("0123456789abcdef-".toList ++ List.replicate 99 'a' ++
        "_.txt".toList) := by
  refine ⟨by decide, by decide, by decide, by decide, by decide⟩

/-- C9 amended: the stored filename is `<16-hex-random>-<sanitized><ext>`
where sanitization keeps ASCII letters of either case, digits, dot and
hyphen, replaces every other character with an underscore, collapses
underscore runs, trims underscores from both edges, truncates to at most
100 characters, and strips any trailing underscore run left by the
truncation. Consequently the sanitized base is at most 100 characters, has
only class characters or single underscores, never starts or ends with an
underscore, and a base name already inside the class of length at most 100
passes through unchanged. -/
theorem C9_filename_amended (id orig t s : List Char)
    (hall : ∀ c ∈ s, allowedUpload c = true) (hlen : s.length ≤ 100) :
    (storedFilename id orig =
      id ++ '-' :: (sanitizeUploadName (extSplit (jsBasename orig)).1 ++
        (extSplit (jsBasename orig)).2)) ∧
    (sanitizeUploadName t).length ≤ 100 ∧
    (∀ c ∈ sanitizeUploadName t, allowedUpload c = true ∨ c = '_') ∧
    noDoubleUnderscore (sanitizeUploadName t) = true ∧
    (∀ c, (sanitizeUploadName t).head? = some c → (c == '_') = false) ∧
    (∀ c, (sanitizeUploadName t).getLast? = some c → (c == '_') = false) ∧
    sanitizeUploadName s = s :=
  ⟨rfl, length_sanitize t, mem_sanitize t, noDouble_sanitize t,
    head_sanitize t, fun c hc => trimTrailing_getLast _ c hc,
    sanitize_id s hall hlen⟩

/-- Witness for C9 amended: a mixed-case original name with spaces and a
class-only name that passes through unchanged. -/
theorem C9_filename_amended_witness :
    (storedFilename ("0123456789abcdef".toList) ("My Photo!.PNG".toList) =
      "0123456789abcdef".toList ++ '-' ::
        (sanitizeUploadName
          (extSplit (jsBasename ("My Photo!.PNG".toList))).1 ++
          (extSplit (jsBasename ("My Photo!.PNG".toList))).2)) ∧
    (sanitizeUploadName ("a__b!".toList)).length ≤ 100 ∧
    (∀ c ∈ sanitizeUploadName ("a__b!".toList),
      allowedUpload c = true ∨ c = '_') ∧
    noDoubleUnderscore (sanitizeUploadName ("a__b!".toList)) = true ∧
    (∀ c, (sanitizeUploadName ("a__b!".toList)).head? = some c →
      (c == '_') = false) ∧
    (∀ c, (sanitizeUploadName ("a__b!".toList)).getLast? = some c →
      (c == '_') = false) ∧
    sanitizeUploadName ("Report-1.txt".toList) = "Report-1.txt".toList :=
  C9_filename_amended ("0123456789abcdef".toList) ("My Photo!.PNG".toList)
    ("a__b!".toList) ("Report-1.txt".toList) (by decide) (by decide)

end Synced
